import Mathlib

/-!
Verification development for the safe-messages signature verification and
confirmation-aggregation engine of the xdc-safe-transaction-service
repository.

The repository snapshot contains the HTTP view layer
(`safe_transaction_service/safe_messages/views.py`) and its test suite
(`safe_transaction_service/safe_messages/tests/test_views.py`); the
serializer/model layer that performs signature decoding, verification and
confirmation bookkeeping is only exercised by those tests, so it is
modelled here from the specification (each such definition carries a
doc comment starting with the words Modelled from the spec).  Byte strings
are `List Nat` with values below 256 where the claims depend on it;
machine-level 32-byte fields are read and written through explicit
big-endian conversion with bounds stated as hypotheses.
-/

set_option maxRecDepth 100000

namespace SafeMsg

/-! ## Byte-level helpers -/

/-- Big-endian serialization of `n` into exactly `k` bytes (most significant
first).  Partner of `beNat`. -/
def bytesBE : Nat → Nat → List Nat
  | 0, _ => []
  | k+1, n => bytesBE k (n / 256) ++ [n % 256]

/-- Big-endian interpretation of a byte list as a natural number. -/
def beNat (l : List Nat) : Nat :=
  l.foldl (fun a b => a * 256 + b) 0

/-- Slice of `l` starting at index `s`, of length `k`. -/
def sliceN (l : List Nat) (s k : Nat) : List Nat :=
  (l.drop s).take k

theorem bytesBE_length (k n : Nat) : (bytesBE k n).length = k := by
  induction k generalizing n with
  | zero => rfl
  | succ k ih => simp [bytesBE, ih]

theorem beNat_append_singleton (l : List Nat) (b : Nat) :
    beNat (l ++ [b]) = beNat l * 256 + b := by
  simp [beNat, List.foldl_append]

theorem beNat_singleton (b : Nat) : beNat [b] = b := by
  simp [beNat]

theorem beNat_bytesBE (k n : Nat) (h : n < 256 ^ k) :
    beNat (bytesBE k n) = n := by
  induction k generalizing n with
  | zero =>
    simp [bytesBE, beNat]
    omega
  | succ k ih =>
    have hdiv : n / 256 < 256 ^ k := by
      rw [Nat.div_lt_iff_lt_mul (by norm_num : 0 < 256)]
      calc n < 256 ^ (k + 1) := h
        _ = 256 ^ k * 256 := by ring
    rw [bytesBE, beNat_append_singleton, ih _ hdiv]
    omega

theorem sliceN_length_le (l : List Nat) (s k : Nat) :
    (sliceN l s k).length ≤ k := by
  simp [sliceN]

/-- Equality of `Except` results is decidable; used to evaluate the model
on concrete inputs. -/
instance {ε α : Type} [DecidableEq ε] [DecidableEq α] : DecidableEq (Except ε α) := fun a b =>
  match a, b with
  | .error e₁, .error e₂ =>
    if h : e₁ = e₂ then .isTrue (by rw [h]) else .isFalse (by simp [h])
  | .error _, .ok _ => .isFalse (by simp)
  | .ok _, .error _ => .isFalse (by simp)
  | .ok a₁, .ok a₂ =>
    if h : a₁ = a₂ then .isTrue (by rw [h]) else .isFalse (by simp [h])

/-! ## Error kinds (spec section 7) -/

/-- Modelled from the spec: the error kinds of section 7, plus the
locally-detected cryptographic/threshold failures that the spec groups
under its structural-or-cryptographic propagation class without naming
individually (`CryptoInvalid`, `Inconclusive`, `ThresholdNotMet`). -/
inductive EngineError
  | MalformedMessage
  | TruncatedSignature
  | UnknownSignatureType
  | RecursionTooDeep
  | DirectoryCycle
  | DirectoryUnavailable
  | NotAnOwner
  | SignerBanned
  | DuplicateMessage
  | DuplicateConfirmation
  | MessageNotFound
  | CryptoInvalid
  | Inconclusive
  | ThresholdNotMet
deriving DecidableEq, Repr

/-! ## SignatureCodec (spec section 4.2) -/

/-- Modelled from the spec: one per-signer signature record.  A
`staticRec` is the fixed 65-byte recoverable form (two 32-byte scalars and
a recovery tag); a `contractRec` is the variable-length contract-based
form, keeping the claimed signer identity and its dynamic payload (the
byte offset is recomputed canonically on encoding, so it is not stored). -/
inductive SigRecord
  | staticRec (r s v : Nat)
  | contractRec (signer : Nat) (payload : List Nat)
deriving DecidableEq, Repr

/-- Length of the dynamic region contributed by one record: a 32-byte
length field plus the payload for contract records, nothing otherwise. -/
def dynLen : SigRecord → Nat
  | .staticRec _ _ _ => 0
  | .contractRec _ p => 32 + p.length

/-- Total dynamic-region length of a record sequence. -/
def dynSum : List SigRecord → Nat
  | [] => 0
  | r :: rs => dynLen r + dynSum rs

/-- Whether a record is the contract-based (reserved tag 0) form. -/
def isContract : SigRecord → Bool
  | .staticRec _ _ _ => false
  | .contractRec _ _ => true

/-- Fixed 65-byte part of one record; `off` is the byte offset of the
record's dynamic payload inside the whole blob (used by contract records,
whose reserved recovery tag is 0). -/
def staticChunk : SigRecord → Nat → List Nat
  | .staticRec r s v, _ => bytesBE 32 r ++ (bytesBE 32 s ++ [v])
  | .contractRec a _, off => bytesBE 32 a ++ (bytesBE 32 off ++ [0])

/-- Dynamic chunk of one record: a 32-byte big-endian length prefix
followed by the payload bytes, empty for fixed records. -/
def dynChunk : SigRecord → List Nat
  | .staticRec _ _ _ => []
  | .contractRec _ p => bytesBE 32 p.length ++ p

/-- Fixed parts of a record sequence, offsets threaded canonically. -/
def staticParts : List SigRecord → Nat → List Nat
  | [], _ => []
  | r :: rs, off => staticChunk r off ++ staticParts rs (off + dynLen r)

/-- Dynamic parts of a record sequence, in record order. -/
def dynParts : List SigRecord → List Nat
  | [] => []
  | r :: rs => dynChunk r ++ dynParts rs

/-- Modelled from the spec: SignatureCodec.encode.  Fixed records are laid
out first in the exact order given, then each record's dynamic payload in
the same order; offsets are rewritten so the blob is canonical (spec
section 4.2). -/
def encode (rs : List SigRecord) : List Nat :=
  staticParts rs (65 * rs.length) ++ dynParts rs

/-- Modelled from the spec: the decoding loop of SignatureCodec.decode.
It walks 65-byte fixed records from the front, keeping `dataPos` as the
lowest dynamic offset declared so far (initially the blob length); it stops
when the next fixed record would start inside the dynamic region, and
fails with `TruncatedSignature` whenever a fixed record or a declared
dynamic offset/length runs past the blob boundary.  `fuel` is a structural
bound on the number of records (one per 65 bytes). -/
def decodeCore (blob : List Nat) : Nat → Nat → Nat → Except EngineError (List SigRecord)
  | 0, _, _ => .error .TruncatedSignature
  | fuel+1, i, dataPos =>
    if dataPos ≤ 65 * i then .ok []
    else if dataPos < 65 * i + 65 then .error .TruncatedSignature
    else
      if beNat (sliceN blob (65 * i + 64) 1) = 0 then
        if blob.length < beNat (sliceN blob (65 * i + 32) 32) + 32 then
          .error .TruncatedSignature
        else
          if blob.length < beNat (sliceN blob (65 * i + 32) 32) + 32 +
              beNat (sliceN blob (beNat (sliceN blob (65 * i + 32) 32)) 32) then
            .error .TruncatedSignature
          else
            match decodeCore blob fuel (i + 1)
                (min dataPos (beNat (sliceN blob (65 * i + 32) 32))) with
            | .error e => .error e
            | .ok rest =>
              .ok (.contractRec (beNat (sliceN blob (65 * i) 32))
                    (sliceN blob (beNat (sliceN blob (65 * i + 32) 32) + 32)
                      (beNat (sliceN blob (beNat (sliceN blob (65 * i + 32) 32)) 32)))
                  :: rest)
      else
        match decodeCore blob fuel (i + 1) dataPos with
        | .error e => .error e
        | .ok rest =>
          .ok (.staticRec (beNat (sliceN blob (65 * i) 32))
                (beNat (sliceN blob (65 * i + 32) 32))
                (beNat (sliceN blob (65 * i + 64) 1)) :: rest)

/-- Modelled from the spec: SignatureCodec.decode.  Fails with
`TruncatedSignature` if the blob is shorter than one fixed record
(65 bytes), otherwise runs the decoding loop. -/
def decode (blob : List Nat) : Except EngineError (List SigRecord) :=
  if blob.length < 65 then .error .TruncatedSignature
  else decodeCore blob (blob.length / 65 + 1) 0 blob.length

/-- Field bounds under which a record is representable in the wire format:
32-byte scalars and a nonzero one-byte recovery tag for fixed records, a
32-byte signer identity for contract records. -/
def ValidRecord : SigRecord → Prop
  | .staticRec r s v => r < 256 ^ 32 ∧ s < 256 ^ 32 ∧ v < 256 ∧ v ≠ 0
  | .contractRec a _ => a < 256 ^ 32

instance : DecidablePred ValidRecord := fun r => by
  cases r <;> simp only [ValidRecord] <;> infer_instance

/-! ## Codec structural lemmas -/

theorem staticChunk_length (r : SigRecord) (off : Nat) :
    (staticChunk r off).length = 65 := by
  cases r <;> simp [staticChunk, bytesBE_length]

theorem staticParts_length (rs : List SigRecord) (off : Nat) :
    (staticParts rs off).length = 65 * rs.length := by
  induction rs generalizing off with
  | nil => simp [staticParts]
  | cons r rest ih =>
    simp [staticParts, staticChunk_length, ih]
    ring

theorem dynParts_length (rs : List SigRecord) :
    (dynParts rs).length = dynSum rs := by
  induction rs with
  | nil => simp [dynParts, dynSum]
  | cons r rest ih =>
    cases r with
    | staticRec r s v => simp [dynParts, dynSum, dynChunk, dynLen, ih]
    | contractRec a p =>
      simp [dynParts, dynSum, dynChunk, dynLen, ih, bytesBE_length]
      ring

theorem dynSum_append (xs ys : List SigRecord) :
    dynSum (xs ++ ys) = dynSum xs + dynSum ys := by
  induction xs with
  | nil => simp [dynSum]
  | cons r rest ih => simp [dynSum, ih]; ring

theorem staticParts_append (xs ys : List SigRecord) (off : Nat) :
    staticParts (xs ++ ys) off =
      staticParts xs off ++ staticParts ys (off + dynSum xs) := by
  induction xs generalizing off with
  | nil => simp [staticParts, dynSum]
  | cons r rest ih =>
    simp only [List.cons_append, staticParts, dynSum, List.append_eq]
    rw [ih, List.append_assoc]
    congr 3
    ring

theorem dynParts_append (xs ys : List SigRecord) :
    dynParts (xs ++ ys) = dynParts xs ++ dynParts ys := by
  induction xs with
  | nil => simp [dynParts]
  | cons r rest ih => simp [dynParts, ih]

theorem dynSum_eq_zero (xs : List SigRecord) (h : xs.any isContract = false) :
    dynSum xs = 0 := by
  induction xs with
  | nil => rfl
  | cons r rest ih =>
    simp only [List.any_cons, Bool.or_eq_false_iff] at h
    cases r with
    | staticRec r s v => simp [dynSum, dynLen, ih h.2]
    | contractRec a p => simp [isContract] at h

theorem encode_length (rs : List SigRecord) :
    (encode rs).length = 65 * rs.length + dynSum rs := by
  simp [encode, List.length_append, staticParts_length, dynParts_length]

/-! ## Round-trip: decoding a canonical encoding recovers the records -/

theorem drop_append_len {α : Type} (l₁ l₂ : List α) (n k : Nat) (h : l₁.length = n) :
    (l₁ ++ l₂).drop (n + k) = l₂.drop k := by
  subst h
  exact List.drop_append k

theorem sliceN_chunk (B : List Nat) (i x y z : Nat) (R : List Nat)
    (h : B.drop i = (bytesBE 32 x ++ (bytesBE 32 y ++ [z])) ++ R) :
    sliceN B i 32 = bytesBE 32 x ∧
      sliceN B (i + 32) 32 = bytesBE 32 y ∧ sliceN B (i + 64) 1 = [z] := by
  refine ⟨?_, ?_, ?_⟩
  · unfold sliceN
    rw [h, List.append_assoc]
    exact List.take_left' (bytesBE_length 32 x)
  · unfold sliceN
    rw [← List.drop_drop 32 i B, h, List.append_assoc,
      List.drop_left' (bytesBE_length 32 x), List.append_assoc]
    exact List.take_left' (bytesBE_length 32 y)
  · unfold sliceN
    rw [← List.drop_drop 64 i B, h]
    have hre : (bytesBE 32 x ++ (bytesBE 32 y ++ [z])) ++ R =
        (bytesBE 32 x ++ bytesBE 32 y) ++ ([z] ++ R) := by
      simp [List.append_assoc]
    rw [hre, List.drop_left'
      (by simp [bytesBE_length] : (bytesBE 32 x ++ bytesBE 32 y).length = 64)]
    simp

theorem staticParts_cons_split (pre : List SigRecord) (rec : SigRecord)
    (rest : List SigRecord) (base : Nat) :
    staticParts (pre ++ rec :: rest) base =
      staticParts pre base ++
        (staticChunk rec (base + dynSum pre) ++
          staticParts rest (base + dynSum pre + dynLen rec)) := by
  rw [staticParts_append]
  simp [staticParts]

theorem encode_drop_static (pre : List SigRecord) (rec : SigRecord) (rest : List SigRecord) :
    (encode (pre ++ rec :: rest)).drop (65 * pre.length) =
      staticChunk rec (65 * (pre ++ rec :: rest).length + dynSum pre) ++
        (staticParts rest (65 * (pre ++ rec :: rest).length + dynSum pre + dynLen rec) ++
          dynParts (pre ++ rec :: rest)) := by
  rw [encode, staticParts_cons_split, List.append_assoc,
    List.drop_left' (staticParts_length pre _), List.append_assoc]

theorem encode_drop_dyn (pre : List SigRecord) (rec : SigRecord) (rest : List SigRecord) :
    (encode (pre ++ rec :: rest)).drop
        (65 * (pre ++ rec :: rest).length + dynSum pre) =
      dynChunk rec ++ dynParts rest := by
  rw [encode, drop_append_len _ _ _ _ (staticParts_length _ _), dynParts_append,
    List.drop_left' (dynParts_length pre)]
  simp [dynParts]

theorem decodeCore_encode :
    ∀ (suf pre : List SigRecord) (fuel : Nat),
      (∀ r ∈ pre ++ suf, ValidRecord r) →
      (encode (pre ++ suf)).length < 256 ^ 32 →
      suf.length < fuel →
      decodeCore (encode (pre ++ suf)) fuel pre.length
        (if pre.any isContract then 65 * (pre ++ suf).length
          else (encode (pre ++ suf)).length) = .ok suf := by
  intro suf
  induction suf with
  | nil =>
    intro pre fuel hv hfit hfuel
    obtain ⟨f, rfl⟩ : ∃ f, fuel = f + 1 := ⟨fuel - 1, by omega⟩
    simp only [List.append_nil]
    have hdp : (if pre.any isContract then 65 * pre.length
        else (encode pre).length) ≤ 65 * pre.length := by
      cases hc : pre.any isContract with
      | true => simp
      | false =>
        simp only [Bool.false_eq_true, if_false]
        rw [encode_length, dynSum_eq_zero pre hc]
        omega
    simp only [decodeCore]
    rw [if_pos hdp]
  | cons rec rest ih =>
    intro pre fuel hv hfit hfuel
    obtain ⟨f, rfl⟩ : ∃ f, fuel = f + 1 := ⟨fuel - 1, by omega⟩
    have hf : rest.length < f := by
      simp only [List.length_cons] at hfuel
      omega
    have hvrec : ValidRecord rec := hv rec (by simp)
    have hLen : (encode (pre ++ rec :: rest)).length =
        65 * (pre ++ rec :: rest).length + dynSum (pre ++ rec :: rest) := encode_length _
    have hlen2 : (pre ++ rec :: rest).length = pre.length + (rest.length + 1) := by simp
    have hdynsplit : dynSum (pre ++ rec :: rest) =
        dynSum pre + (dynLen rec + dynSum rest) := by
      rw [dynSum_append]
      rfl
    have hge : 65 * (pre ++ rec :: rest).length ≤
        (if pre.any isContract then 65 * (pre ++ rec :: rest).length
          else (encode (pre ++ rec :: rest)).length) := by
      cases hc : pre.any isContract with
      | true => simp
      | false =>
        simp only [Bool.false_eq_true, if_false]
        omega
    have hc1 : ¬ ((if pre.any isContract then 65 * (pre ++ rec :: rest).length
        else (encode (pre ++ rec :: rest)).length) ≤ 65 * pre.length) := by
      omega
    have hc2 : ¬ ((if pre.any isContract then 65 * (pre ++ rec :: rest).length
        else (encode (pre ++ rec :: rest)).length) < 65 * pre.length + 65) := by
      omega
    have hassoc : (pre ++ [rec]) ++ rest = pre ++ rec :: rest := by simp
    have hrec0 := ih (pre ++ [rec]) f
      (by rw [hassoc]; exact hv) (by rw [hassoc]; exact hfit) hf
    rw [hassoc] at hrec0
    have hl1 : (pre ++ [rec]).length = pre.length + 1 := by simp
    rw [hl1] at hrec0
    cases rec with
    | staticRec r s v =>
      obtain ⟨hr, hs, hvlt, hvne⟩ := hvrec
      have hdrop := encode_drop_static pre (SigRecord.staticRec r s v) rest
      simp only [staticChunk] at hdrop
      obtain ⟨hread0, hread32, hread64⟩ := sliceN_chunk _ _ r s v _ hdrop
      have hany : (pre ++ [SigRecord.staticRec r s v]).any isContract =
          pre.any isContract := by
        simp [isContract]
      rw [hany] at hrec0
      simp only [decodeCore]
      rw [if_neg hc1, if_neg hc2, hread0, hread32, hread64, beNat_singleton,
        beNat_bytesBE 32 r hr, beNat_bytesBE 32 s hs, if_neg hvne, hrec0]
    | contractRec a p =>
      have ha : a < 256 ^ 32 := hvrec
      have hdl : dynLen (SigRecord.contractRec a p) = 32 + p.length := rfl
      rw [hdl] at hdynsplit
      have hofflt : 65 * (pre ++ SigRecord.contractRec a p :: rest).length +
          dynSum pre < 256 ^ 32 := by
        omega
      have hplt : p.length < 256 ^ 32 := by omega
      have hdrop := encode_drop_static pre (SigRecord.contractRec a p) rest
      simp only [staticChunk] at hdrop
      obtain ⟨hread0, hread32, hread64⟩ := sliceN_chunk _ _ a
        (65 * (pre ++ SigRecord.contractRec a p :: rest).length + dynSum pre) 0 _ hdrop
      have hdropd := encode_drop_dyn pre (SigRecord.contractRec a p) rest
      simp only [dynChunk] at hdropd
      have hlenread : sliceN (encode (pre ++ SigRecord.contractRec a p :: rest))
          (65 * (pre ++ SigRecord.contractRec a p :: rest).length + dynSum pre) 32 =
          bytesBE 32 p.length := by
        unfold sliceN
        rw [hdropd, List.append_assoc]
        exact List.take_left' (bytesBE_length 32 p.length)
      have hpay : sliceN (encode (pre ++ SigRecord.contractRec a p :: rest))
          (65 * (pre ++ SigRecord.contractRec a p :: rest).length + dynSum pre + 32)
          p.length = p := by
        unfold sliceN
        rw [← List.drop_drop 32
            (65 * (pre ++ SigRecord.contractRec a p :: rest).length + dynSum pre) _,
          hdropd, List.append_assoc, List.drop_left' (bytesBE_length 32 p.length)]
        exact List.take_left p (dynParts rest)
      have hc3 : ¬ ((encode (pre ++ SigRecord.contractRec a p :: rest)).length <
          65 * (pre ++ SigRecord.contractRec a p :: rest).length + dynSum pre + 32) := by
        omega
      have hc4 : ¬ ((encode (pre ++ SigRecord.contractRec a p :: rest)).length <
          65 * (pre ++ SigRecord.contractRec a p :: rest).length + dynSum pre + 32 +
            p.length) := by
        omega
      have hmin : min (if pre.any isContract
            then 65 * (pre ++ SigRecord.contractRec a p :: rest).length
            else (encode (pre ++ SigRecord.contractRec a p :: rest)).length)
          (65 * (pre ++ SigRecord.contractRec a p :: rest).length + dynSum pre) =
          65 * (pre ++ SigRecord.contractRec a p :: rest).length := by
        cases hc : pre.any isContract with
        | true =>
          simp only [if_pos rfl]
          exact Nat.min_eq_left (Nat.le_add_right _ _)
        | false =>
          simp only [Bool.false_eq_true, if_false]
          rw [dynSum_eq_zero pre hc]
          exact Nat.min_eq_right (by omega)
      have hany : (pre ++ [SigRecord.contractRec a p]).any isContract = true := by
        simp [isContract]
      rw [hany, if_pos rfl] at hrec0
      simp only [decodeCore]
      rw [if_neg hc1, if_neg hc2, hread0, hread32, hread64, beNat_singleton,
        beNat_bytesBE 32 a ha, beNat_bytesBE 32 _ hofflt, if_pos rfl,
        hlenread, beNat_bytesBE 32 p.length hplt, if_neg hc3, if_neg hc4, hpay,
        hmin, hrec0]

/-- Decoding a canonical nonempty encoding recovers exactly the encoded
records (and hence re-encoding reproduces the blob byte-exactly). -/
theorem decode_encode (rs : List SigRecord) (hne : rs ≠ [])
    (hv : ∀ r ∈ rs, ValidRecord r) (hfit : (encode rs).length < 256 ^ 32) :
    decode (encode rs) = .ok rs := by
  have hnlen : 1 ≤ rs.length := by
    cases rs with
    | nil => exact absurd rfl hne
    | cons a l => simp
  have hlen : (encode rs).length = 65 * rs.length + dynSum rs := encode_length rs
  have hge : ¬ ((encode rs).length < 65) := by omega
  have hfuel : rs.length < (encode rs).length / 65 + 1 := by
    have : rs.length ≤ (encode rs).length / 65 :=
      (Nat.le_div_iff_mul_le (by norm_num)).2 (by omega)
    omega
  have hmain := decodeCore_encode rs [] ((encode rs).length / 65 + 1)
    (by simpa using hv) (by simpa using hfit) hfuel
  simp only [List.nil_append, List.any_nil, Bool.false_eq_true, if_false,
    List.length_nil] at hmain
  rw [decode, if_neg hge]
  exact hmain

/-! ## Messages, environment and SignatureVerifier (spec sections 4.1, 4.3, 6) -/

/-- Modelled from the spec: an input message is either plain text (EIP-191
style hashing) or a structured typed-data payload (EIP-712 style hashing);
the structured payload is kept opaque here since no claim depends on its
internal shape. -/
inductive MessageContent
  | text (bytes : List Nat)
  | typed (node : Nat)
deriving DecidableEq, Repr

/-- Modelled from the spec: the external collaborators of the engine —
OwnerDirectory (`ownersOf`, `thresholdOf`), the deny-list (`banned`), the
network identifier, and the cryptographic primitives, which are opaque
external functions: `recover` is signature recovery over
`(hash, r, s, tag)`, `ethSignWrap` the legacy eth_sign prefixing of a
digest, `wrapHash` the per-account domain-separated rewrapping used for
nested contract-based verification, `digest` the message digest of
section 4.1 and `accountWrap` the account/network domain separation. -/
structure Env where
  networkId : Nat
  ownersOf : Nat → List Nat
  thresholdOf : Nat → Nat
  banned : List Nat
  recover : Nat → Nat → Nat → Nat → Option Nat
  ethSignWrap : Nat → Nat
  wrapHash : Nat → Nat → Nat
  digest : MessageContent → Nat
  accountWrap : Nat → Nat → Nat → Nat

/-- Modelled from the spec: MessageHashComputer.hash — the account-scoped
message hash wrapping the message digest with the account identity and
network id (spec section 4.1). -/
def messageHashOf (env : Env) (account : Nat) (m : MessageContent) : Nat :=
  env.accountWrap account env.networkId (env.digest m)

/-- Modelled from the spec: the fixed recursion-depth limit of the
contract-based verification algorithm (spec section 4.3 suggests 10). -/
def depthLimit : Nat := 10

/-- Sequencing of a fallible function over a list, stopping at the first
error; used for verifying every decoded record. -/
def mapExcept {α β : Type} (f : α → Except EngineError β) :
    List α → Except EngineError (List β)
  | [] => .ok []
  | a :: as =>
    match f a with
    | .error e => .error e
    | .ok b =>
      match mapExcept f as with
      | .error e => .error e
      | .ok bs => .ok (b :: bs)

/-- Modelled from the spec: SignatureVerifier.verify (spec section 4.3),
dispatching on the recovery tag: 27/28 plain-key recovery, 31/32 legacy
eth_sign recovery over the prefixed hash, 1 pre-approved hash (treated as
`Inconclusive`), any other nonzero tag `UnknownSignatureType`.  A
contract-based record carries the claimed signer in its fixed part;
verification recurses through the signer's own owner set and threshold on
the rewrapped hash, with an explicit depth bound (`RecursionTooDeep`) and
cycle detection on revisited accounts (`DirectoryCycle`). -/
def verify (env : Env) : Nat → List Nat → SigRecord → Nat → Nat → Except EngineError Nat
  | _, _, .staticRec r s v, h, _ =>
    if v = 27 ∨ v = 28 then
      match env.recover h r s v with
      | some o => .ok o
      | none => .error .CryptoInvalid
    else if v = 31 ∨ v = 32 then
      match env.recover (env.ethSignWrap h) r s v with
      | some o => .ok o
      | none => .error .CryptoInvalid
    else if v = 1 then .error .Inconclusive
    else .error .UnknownSignatureType
  | 0, _, .contractRec _ _, _, _ => .error .RecursionTooDeep
  | depth+1, visited, .contractRec signer payload, h, _ =>
    if visited.contains signer then .error .DirectoryCycle
    else
      match decode payload with
      | .error e => .error e
      | .ok nested =>
        match mapExcept
            (fun rec => verify env depth (signer :: visited) rec
              (env.wrapHash signer h) signer) nested with
        | .error e => .error e
        | .ok os =>
          if os.all (fun o => (env.ownersOf signer).contains o) then
            if env.thresholdOf signer ≤ os.dedup.length then .ok signer
            else .error .ThresholdNotMet
          else .error .NotAnOwner

/-! ## ConfirmationLedger state (spec section 3) -/

/-- Modelled from the spec: the signature-type tag stored with a
confirmation. -/
inductive SignatureType
  | contractSig
  | approvedHash
  | eoa
  | ethSign
  | unknownType
deriving DecidableEq, Repr

/-- Signature type derived from a record's recovery tag. -/
def sigTypeOf : SigRecord → SignatureType
  | .contractRec _ _ => .contractSig
  | .staticRec _ _ v =>
    if v = 1 then .approvedHash
    else if v = 27 ∨ v = 28 then .eoa
    else if v = 31 ∨ v = 32 then .ethSign
    else .unknownType

/-- Modelled from the spec: one stored Message (spec section 3); `content`
carries both the kind tag and the payload, timestamps are abstract ticks. -/
structure StoredMessage where
  account_id : Nat
  content : MessageContent
  message_hash : Nat
  proposed_by : Nat
  created : Nat
  modified : Nat
deriving DecidableEq, Repr

/-- Modelled from the spec: one stored Confirmation (spec section 3). -/
structure StoredConfirmation where
  message_hash : Nat
  owner_id : Nat
  record : SigRecord
  sig_type : SignatureType
  created : Nat
  modified : Nat
deriving DecidableEq, Repr

/-- Modelled from the spec: the ledger's mutable state — the Message and
Confirmation collections. -/
structure LedgerState where
  messages : List StoredMessage
  confirmations : List StoredConfirmation
deriving DecidableEq, Repr

/-- Message lookup by message hash (the ledger key used by `confirm`). -/
def findMessage (st : LedgerState) (h : Nat) : Option StoredMessage :=
  st.messages.find? (fun m => m.message_hash == h)

/-- All stored confirmations of one message hash, in storage order. -/
def confsOf (st : LedgerState) (h : Nat) : List StoredConfirmation :=
  st.confirmations.filter (fun c => c.message_hash == h)

/-! ## Prepared-signature aggregation (spec sections 3 and 4.4) -/

/-- Insertion of a confirmation into a list sorted by ascending owner
identity (owner identities are numeric, which matches comparing the
fixed-width big-endian address bytes). -/
def insertByOwner (c : StoredConfirmation) :
    List StoredConfirmation → List StoredConfirmation
  | [] => [c]
  | d :: ds =>
    if c.owner_id ≤ d.owner_id then c :: d :: ds
    else d :: insertByOwner c ds

/-- Insertion sort of confirmations by ascending owner identity. -/
def sortByOwner : List StoredConfirmation → List StoredConfirmation
  | [] => []
  | c :: cs => insertByOwner c (sortByOwner cs)

/-- Modelled from the spec: ConfirmationLedger.preparedSignature — nothing
when the message has zero confirmations, otherwise the canonical join
(SignatureCodec.encode) of the stored records in strictly ascending
owner order (spec sections 3 and 4.4). -/
def preparedSignature (st : LedgerState) (h : Nat) : Option (List Nat) :=
  if (confsOf st h).isEmpty then none
  else some (encode ((sortByOwner (confsOf st h)).map (fun c => c.record)))

/-! ## Ledger operations (spec section 4.4) -/

/-- Modelled from the spec: ConfirmationLedger.propose — derives the
message hash from the payload, decodes the blob, verifies every record,
checks each resulting owner against the directory's owner set
(`NotAnOwner`) then the deny-list (`SignerBanned`), rejects an existing
`(account_id, message_hash)` pair with `DuplicateMessage`, and otherwise
creates the Message (proposer = first verified owner) plus one
Confirmation per verified owner. -/
def propose (env : Env) (st : LedgerState) (account : Nat) (msg : MessageContent)
    (blob : List Nat) (now : Nat) : Except EngineError LedgerState :=
  match decode blob with
  | .error e => .error e
  | .ok records =>
    match mapExcept
        (fun rec => verify env depthLimit [] rec (messageHashOf env account msg) account)
        records with
    | .error e => .error e
    | .ok owners =>
      if owners.all (fun o => (env.ownersOf account).contains o) then
        if owners.any (fun o => env.banned.contains o) then .error .SignerBanned
        else if st.messages.any (fun m =>
            m.account_id == account && m.message_hash == messageHashOf env account msg) then
          .error .DuplicateMessage
        else
          match owners with
          | [] => .error .MalformedMessage
          | o₀ :: _ =>
            .ok ⟨⟨account, msg, messageHashOf env account msg, o₀, now, now⟩ :: st.messages,
              (List.zip owners records).map (fun pr =>
                ⟨messageHashOf env account msg, pr.1, pr.2, sigTypeOf pr.2, now, now⟩) ++
                st.confirmations⟩
      else .error .NotAnOwner

/-- Modelled from the spec: ConfirmationLedger.confirm — the message is
looked up first (`MessageNotFound`, matching the view layer's 404-before-
validation order), the blob is decoded (`TruncatedSignature` when shorter
than 65 bytes) and must contain the single expected signer's record, which
is verified against the stored message's account; a signer that already
confirmed is rejected with `DuplicateConfirmation` before the owner-set
and deny-list checks (matching the test suite's observed order); on
success the confirmation is appended and the message's `modified`
timestamp advances. -/
def confirm (env : Env) (st : LedgerState) (h : Nat) (blob : List Nat)
    (now : Nat) : Except EngineError LedgerState :=
  match findMessage st h with
  | none => .error .MessageNotFound
  | some msg =>
    match decode blob with
    | .error e => .error e
    | .ok records =>
      match records with
      | [rec] =>
        match verify env depthLimit [] rec h msg.account_id with
        | .error e => .error e
        | .ok o =>
          if (confsOf st h).any (fun c => c.owner_id == o) then
            .error .DuplicateConfirmation
          else if (env.ownersOf msg.account_id).contains o then
            if env.banned.contains o then .error .SignerBanned
            else
              .ok ⟨st.messages.map (fun m =>
                  if m.message_hash = h then
                    { m with modified := now }
                  else m),
                ⟨h, o, rec, sigTypeOf rec, now, now⟩ :: st.confirmations⟩
          else .error .NotAnOwner
      | _ => .error .MalformedMessage

/-! ## Sorting lemmas for the aggregation order -/

theorem insertByOwner_perm (c : StoredConfirmation) (l : List StoredConfirmation) :
    (insertByOwner c l).Perm (c :: l) := by
  induction l with
  | nil => exact List.Perm.refl _
  | cons d ds ih =>
    by_cases hle : c.owner_id ≤ d.owner_id
    · rw [insertByOwner, if_pos hle]
    · rw [insertByOwner, if_neg hle]
      exact (ih.cons d).trans (List.Perm.swap c d ds)

theorem sortByOwner_perm (l : List StoredConfirmation) :
    (sortByOwner l).Perm l := by
  induction l with
  | nil => exact List.Perm.refl _
  | cons c cs ih =>
    exact (insertByOwner_perm c (sortByOwner cs)).trans (ih.cons c)

theorem insertByOwner_pairwise (c : StoredConfirmation) (l : List StoredConfirmation)
    (h : l.Pairwise (fun a b => a.owner_id ≤ b.owner_id)) :
    (insertByOwner c l).Pairwise (fun a b => a.owner_id ≤ b.owner_id) := by
  induction l with
  | nil => simp [insertByOwner]
  | cons d ds ih =>
    rw [List.pairwise_cons] at h
    by_cases hle : c.owner_id ≤ d.owner_id
    · rw [insertByOwner, if_pos hle]
      refine List.Pairwise.cons ?_ (List.Pairwise.cons h.1 h.2)
      intro x hx
      rcases List.mem_cons.mp hx with hx | hx
      · rw [hx]
        exact hle
      · exact le_trans hle (h.1 x hx)
    · rw [insertByOwner, if_neg hle]
      refine List.Pairwise.cons ?_ (ih h.2)
      intro x hx
      have hx' : x ∈ c :: ds := (insertByOwner_perm c ds).mem_iff.1 hx
      rcases List.mem_cons.mp hx' with hx2 | hx2
      · rw [hx2]
        omega
      · exact h.1 x hx2

theorem sortByOwner_pairwise (l : List StoredConfirmation) :
    (sortByOwner l).Pairwise (fun a b => a.owner_id ≤ b.owner_id) := by
  induction l with
  | nil => simp [sortByOwner]
  | cons c cs ih => exact insertByOwner_pairwise c _ ih

/-- Two permuted lists that are both strictly sorted on a numeric key are
equal. -/
theorem perm_eq_of_pairwise_key {α : Type} (key : α → Nat) :
    ∀ (l₁ l₂ : List α), l₁.Perm l₂ →
      l₁.Pairwise (fun a b => key a < key b) →
      l₂.Pairwise (fun a b => key a < key b) → l₁ = l₂ := by
  intro l₁
  induction l₁ with
  | nil =>
    intro l₂ hp _ _
    exact (hp.nil_eq).symm ▸ rfl
  | cons a t₁ ih =>
    intro l₂ hp h₁ h₂
    cases l₂ with
    | nil => exact absurd hp.symm (by simp)
    | cons b t₂ =>
      rw [List.pairwise_cons] at h₁ h₂
      have hab : a = b := by
        have hain : a ∈ b :: t₂ := hp.mem_iff.1 (by simp)
        rcases List.mem_cons.mp hain with hain2 | hain2
        · exact hain2
        · have hbin : b ∈ a :: t₁ := hp.symm.mem_iff.1 (by simp)
          rcases List.mem_cons.mp hbin with hbin2 | hbin2
          · exact hbin2.symm
          · have h1 := h₁.1 b hbin2
            have h2 := h₂.1 a hain2
            omega
      subst hab
      have := ih t₂ (hp.cons_inv) h₁.2 h₂.2
      rw [this]

/-! ## Ledger utility lemmas -/

/-- Touching the `modified` field of the message stored under hash `h`
commutes with lookup by `h`. -/
theorem find_touch (l : List StoredMessage) (h now : Nat) (msg : StoredMessage)
    (hfind : l.find? (fun m => m.message_hash == h) = some msg) :
    (l.map (fun m => if m.message_hash = h then { m with modified := now } else m)).find?
        (fun m => m.message_hash == h) = some { msg with modified := now } := by
  induction l with
  | nil => simp at hfind
  | cons a t ih =>
    cases hpa : (a.message_hash == h) with
    | true =>
      rw [@List.find?_cons_of_pos _ (fun m => m.message_hash == h) a t hpa] at hfind
      have hma : msg = a := by
        injection hfind with hf
        exact hf.symm
      subst hma
      have hpe : msg.message_hash = h := by simpa using hpa
      simp only [List.map_cons, if_pos hpe]
      exact @List.find?_cons_of_pos _ (fun m : StoredMessage => m.message_hash == h) _ _
        (by simpa using hpa)
    | false =>
      have hne : ¬ (a.message_hash = h) := by simpa using hpa
      rw [@List.find?_cons_of_neg _ (fun m : StoredMessage => m.message_hash == h) a t
        (by simpa using hpa)] at hfind
      simp only [List.map_cons]
      rw [if_neg hne]
      rw [@List.find?_cons_of_neg _ (fun m : StoredMessage => m.message_hash == h) a _
        (by simpa using hpa)]
      exact ih hfind

/-! ## Concrete test fixtures for witnesses -/

/-- Test environment: account 1 is owned directly by plain key 3; every
recovery resolves to key 3. -/
def envA : Env where
  networkId := 1
  ownersOf := fun a => if a = 1 then [3] else []
  thresholdOf := fun _ => 1
  banned := []
  recover := fun _ _ _ _ => some 3
  ethSignWrap := fun h => h + 1
  wrapHash := fun a h => a * 1000 + h
  digest := fun _ => 7
  accountWrap := fun a n d => a * 100 + n * 10 + d

/-- Test environment for nested verification: account 1 is owned by
account 2, itself owned by plain key 3. -/
def envB : Env where
  networkId := 1
  ownersOf := fun a => if a = 1 then [2] else if a = 2 then [3] else []
  thresholdOf := fun _ => 1
  banned := []
  recover := fun _ _ _ _ => some 3
  ethSignWrap := fun h => h + 1
  wrapHash := fun a h => a * 1000 + h
  digest := fun _ => 7
  accountWrap := fun a n d => a * 100 + n * 10 + d

/-- Test environment in which the recovering owner 3 is deny-listed. -/
def envC : Env where
  networkId := 1
  ownersOf := fun a => if a = 1 then [3] else []
  thresholdOf := fun _ => 1
  banned := [3]
  recover := fun _ _ _ _ => some 3
  ethSignWrap := fun h => h + 1
  wrapHash := fun a h => a * 1000 + h
  digest := fun _ => 7
  accountWrap := fun a n d => a * 100 + n * 10 + d

/-- A stored message under hash 9 for account 1, proposed by owner 3. -/
def msgW : StoredMessage :=
  ⟨1, MessageContent.text [1], 9, 3, 0, 0⟩

/-- A single fixed 65-byte plain-key record used by the witnesses. -/
def recW : SigRecord := SigRecord.staticRec 5 6 27

/-! ## Claims -/

/-- A well-formed signature blob: the canonical encoding (fixed records
first, dynamic payloads after, offsets rewritten) of a nonempty sequence
of structurally valid records whose offsets fit their 32-byte fields.
Since `encode` preserves the given record order, the round-trip below
holds for every such blob, in particular for those whose records are
ordered ascending by signer as the claim requires. -/
def WellFormedBlob (b : List Nat) : Prop :=
  ∃ rs : List SigRecord,
    rs ≠ [] ∧ (∀ r ∈ rs, ValidRecord r) ∧ b.length < 256 ^ 32 ∧ encode rs = b

/-- C8: for every well-formed signature blob `b` (in particular one whose
records are already ordered ascending by signer), SignatureCodec satisfies
the round-trip law: decoding recovers records that re-encode to exactly
`b`. -/
theorem claim_C8_roundtrip (b : List Nat) (hb : WellFormedBlob b) :
    ∃ rs, decode b = .ok rs ∧ encode rs = b := by
  obtain ⟨rs, hne, hv, hfit, henc⟩ := hb
  subst henc
  exact ⟨rs, decode_encode rs hne hv hfit, rfl⟩

/-- Witness for C8 at a concrete two-record blob (one fixed plain-key
record followed by one contract record with a one-byte payload). -/
theorem claim_C8_witness :
    ∃ rs,
      decode (encode [SigRecord.staticRec 1 2 27, SigRecord.contractRec 9 [5]]) = .ok rs ∧
        encode rs = encode [SigRecord.staticRec 1 2 27, SigRecord.contractRec 9 [5]] :=
  claim_C8_roundtrip _
    ⟨[SigRecord.staticRec 1 2 27, SigRecord.contractRec 9 [5]],
      by decide, by decide, by decide, rfl⟩

/-- C6: the prepared signature is a deterministic function of the
confirmation set (any two storage orders of the same confirmations give
the same result), and the aggregation order is strictly ascending in
`owner_id` (numeric order, which coincides with fixed-width big-endian
byte order). -/
theorem claim_C6_prepared_signature_deterministic (st₁ st₂ : LedgerState) (h : Nat)
    (hperm : (confsOf st₁ h).Perm (confsOf st₂ h))
    (hnodup : ((confsOf st₁ h).map (fun c => c.owner_id)).Nodup) :
    preparedSignature st₁ h = preparedSignature st₂ h ∧
      ((sortByOwner (confsOf st₁ h)).map (fun c => c.owner_id)).Pairwise (· < ·) := by
  have hkey : ∀ l : List StoredConfirmation, l.Perm (confsOf st₁ h) →
      (sortByOwner l).Pairwise (fun a b => a.owner_id < b.owner_id) := by
    intro l hl
    have hsorted := sortByOwner_pairwise l
    have hpermc : (sortByOwner l).Perm (confsOf st₁ h) := (sortByOwner_perm l).trans hl
    have hnd : ((sortByOwner l).map (fun c => c.owner_id)).Nodup :=
      (hpermc.map (fun c => c.owner_id)).nodup_iff.2 hnodup
    have hpnd : (sortByOwner l).Pairwise (fun a b => a.owner_id ≠ b.owner_id) :=
      List.pairwise_map.mp hnd
    exact (hsorted.and hpnd).imp (fun hab => lt_of_le_of_ne hab.1 hab.2)
  have heq : sortByOwner (confsOf st₁ h) = sortByOwner (confsOf st₂ h) := by
    apply perm_eq_of_pairwise_key (fun c : StoredConfirmation => c.owner_id)
    · exact (sortByOwner_perm _).trans (hperm.trans (sortByOwner_perm _).symm)
    · exact hkey _ (List.Perm.refl _)
    · exact hkey _ hperm.symm
  refine ⟨?_, List.pairwise_map.mpr (hkey _ (List.Perm.refl _))⟩
  have hiff : (confsOf st₁ h).isEmpty = (confsOf st₂ h).isEmpty := by
    cases h1 : confsOf st₁ h with
    | nil =>
      have h2 : confsOf st₂ h = [] := by
        rw [h1] at hperm
        exact hperm.symm.eq_nil
      rw [h2]
    | cons a t =>
      cases h2 : confsOf st₂ h with
      | nil =>
        rw [h1, h2] at hperm
        exact absurd hperm.eq_nil (by simp)
      | cons b u => rfl
  simp only [preparedSignature]
  rw [heq, hiff]

/-- Witness for C6: the same two confirmations stored in opposite orders
aggregate identically and in ascending owner order. -/
theorem claim_C6_witness :
    preparedSignature ⟨[msgW], [⟨9, 3, recW, .eoa, 0, 0⟩, ⟨9, 2, recW, .eoa, 0, 0⟩]⟩ 9 =
        preparedSignature ⟨[msgW], [⟨9, 2, recW, .eoa, 0, 0⟩, ⟨9, 3, recW, .eoa, 0, 0⟩]⟩ 9 ∧
      ((sortByOwner (confsOf
          ⟨[msgW], [⟨9, 3, recW, .eoa, 0, 0⟩, ⟨9, 2, recW, .eoa, 0, 0⟩]⟩ 9)).map
        (fun c => c.owner_id)).Pairwise (· < ·) :=
  claim_C6_prepared_signature_deterministic _ _ 9 (by decide) (by decide)

/-- C7: `preparedSignature` returns nothing exactly when the message has
zero confirmations, and otherwise returns the canonical aggregated blob
(the encoding of the records sorted by ascending owner). -/
theorem claim_C7_prepared_signature_option (st : LedgerState) (h : Nat) :
    (preparedSignature st h = none ↔ confsOf st h = []) ∧
      (confsOf st h ≠ [] →
        preparedSignature st h =
          some (encode ((sortByOwner (confsOf st h)).map (fun c => c.record)))) := by
  constructor
  · simp only [preparedSignature]
    cases hc : confsOf st h with
    | nil => simp
    | cons a t => simp
  · intro hne
    have hfalse : (confsOf st h).isEmpty = false := by
      cases hc : confsOf st h with
      | nil => exact absurd hc hne
      | cons a t => rfl
    simp only [preparedSignature, hfalse, Bool.false_eq_true, if_false]

/-- Witness for C7 on a message with one confirmation and a message with
none. -/
theorem claim_C7_witness :
    preparedSignature ⟨[msgW], [⟨9, 3, recW, .eoa, 0, 0⟩]⟩ 9 =
      some (encode ((sortByOwner (confsOf
        ⟨[msgW], [⟨9, 3, recW, .eoa, 0, 0⟩]⟩ 9)).map (fun c => c.record))) :=
  (claim_C7_prepared_signature_option ⟨[msgW], [⟨9, 3, recW, .eoa, 0, 0⟩]⟩ 9).2 (by decide)

/-! ## View layer (safe_messages/views.py) -/

/-- Body of the checksum-validation failure response built in
`SafeMessagesView.get` and `SafeMessagesView.post` (views.py lines
102-110 and 130-138). -/
structure ErrorBody where
  code : Nat
  message : String
  arguments : List String
deriving DecidableEq, Repr

/-- Responses produced by the message views: a serialized listing (200),
a created marker (201), a validation failure (400) or an
unprocessable-entity checksum failure (422). -/
inductive ViewResponse
  | contentList (body : List StoredMessage)
  | createdRes
  | badRequest (e : EngineError)
  | unprocessable (body : ErrorBody)
deriving DecidableEq, Repr

/-- HTTP status code of a view response. -/
def statusOf : ViewResponse → Nat
  | .contentList _ => 200
  | .createdRes => 201
  | .badRequest _ => 400
  | .unprocessable _ => 422

/-- The literal 422 body of views.py: code 1, fixed message, offending
address as the only argument. -/
def checksumFailBody (address : String) : ErrorBody :=
  ⟨1, "Checksum address validation failed", [address]⟩

/-- `SafeMessagesView.get` (views.py lines 98-111): the checksum guard
runs first and returns the 422 body verbatim; only a checksummed address
reaches the listing logic, abstracted as `listMessages`. -/
def safeMessagesGet (isChecksum : String → Bool)
    (listMessages : String → List StoredMessage) (address : String) : ViewResponse :=
  if isChecksum address then .contentList (listMessages address)
  else .unprocessable (checksumFailBody address)

/-- `SafeMessagesView.post` (views.py lines 118-142): the checksum guard
runs before the serializer is even constructed, so the hash computation,
signature verification and persistence pipeline (abstracted as
`createPipeline`, which receives the ledger state and returns the new
state plus a response) is never invoked for a non-checksummed address and
the state is returned unchanged. -/
def safeMessagesPost (isChecksum : String → Bool)
    (createPipeline : LedgerState → String → MessageContent × List Nat →
      LedgerState × ViewResponse)
    (st : LedgerState) (address : String) (payload : MessageContent × List Nat) :
    LedgerState × ViewResponse :=
  if isChecksum address then createPipeline st address payload
  else (st, .unprocessable (checksumFailBody address))

/-- C10: for every address that fails checksum validation, both the
listing view and the propose view answer 422 with body code 1 and message
"Checksum address validation failed", for every possible downstream
pipeline (hence before any message-hash computation or signature
verification), and the ledger state is returned unchanged (no Message or
Confirmation is created). -/
theorem claim_C10_checksum_guard (isChecksum : String → Bool)
    (listMessages : String → List StoredMessage)
    (createPipeline : LedgerState → String → MessageContent × List Nat →
      LedgerState × ViewResponse)
    (st : LedgerState) (address : String) (payload : MessageContent × List Nat)
    (hbad : isChecksum address = false) :
    safeMessagesGet isChecksum listMessages address =
        .unprocessable ⟨1, "Checksum address validation failed", [address]⟩ ∧
      safeMessagesPost isChecksum createPipeline st address payload =
        (st, .unprocessable ⟨1, "Checksum address validation failed", [address]⟩) ∧
      statusOf (safeMessagesGet isChecksum listMessages address) = 422 := by
  refine ⟨?_, ?_, ?_⟩
  · simp [safeMessagesGet, hbad, checksumFailBody]
  · simp [safeMessagesPost, hbad, checksumFailBody]
  · simp [safeMessagesGet, hbad, checksumFailBody, statusOf]

/-- Witness for C10 with a concrete rejecting checksum predicate and a
pipeline that would otherwise mutate the state. -/
theorem claim_C10_witness :
    safeMessagesGet (fun _ => false) (fun _ => [msgW]) "0xabc" =
        .unprocessable ⟨1, "Checksum address validation failed", ["0xabc"]⟩ ∧
      safeMessagesPost (fun _ => false)
          (fun st _ _ => (⟨msgW :: st.messages, st.confirmations⟩, .createdRes))
          ⟨[], []⟩ "0xabc" (MessageContent.text [1], [0]) =
        (⟨[], []⟩, .unprocessable ⟨1, "Checksum address validation failed", ["0xabc"]⟩) ∧
      statusOf (safeMessagesGet (fun _ => false) (fun _ => [msgW]) "0xabc") = 422 :=
  claim_C10_checksum_guard (fun _ => false) (fun _ => [msgW])
    (fun st _ _ => (⟨msgW :: st.messages, st.confirmations⟩, .createdRes))
    ⟨[], []⟩ "0xabc" (MessageContent.text [1], [0]) rfl

/-- Counterexample for C1 as stated: a confirm call with a 1-byte
signature on a message hash that does not exist fails with
`MessageNotFound`, not `TruncatedSignature` — the message is resolved
before the signature is examined (views.py resolves the message via
get_object_or_404 in get_serializer_context before serializer validation,
and test_views.py lines 344-354 observe exactly this 404). -/
theorem claim_C1_counterexample :
    confirm envA ⟨[], []⟩ 9 [0] 0 = .error .MessageNotFound ∧
      confirm envA ⟨[], []⟩ 9 [0] 0 ≠ .error .TruncatedSignature ∧
      ([0] : List Nat).length < 65 := by
  refine ⟨by decide, by decide, by decide⟩

/-- C1 (amended): for every confirm call on an existing message whose
signature blob is shorter than 65 bytes, the operation fails with
`TruncatedSignature` (the structural length error), never with a
cryptographic verification error. -/
theorem claim_C1_short_signature (env : Env) (st : LedgerState) (h : Nat)
    (blob : List Nat) (now : Nat)
    (hmsg : (findMessage st h).isSome) (hshort : blob.length < 65) :
    confirm env st h blob now = .error .TruncatedSignature := by
  obtain ⟨msg, hm⟩ := Option.isSome_iff_exists.mp hmsg
  simp [confirm, hm, decode, if_pos hshort]

/-- Witness for C1 (amended) on a stored message and a 1-byte blob. -/
theorem claim_C1_witness :
    confirm envA ⟨[msgW], []⟩ 9 [0] 0 = .error .TruncatedSignature :=
  claim_C1_short_signature envA ⟨[msgW], []⟩ 9 [0] 0 (by decide) (by decide)

/-- C2: once a first confirmation by owner `o` on message `h` has been
accepted, a second confirm call whose signature verifies to the same
owner — whether its bytes are identical to or distinct from the first —
fails with `DuplicateConfirmation`; since the operation returns an error,
the stored confirmation is neither merged nor replaced. -/
theorem claim_C2_duplicate_confirmation (env : Env) (st : LedgerState)
    (h now₁ now₂ : Nat) (blob₁ blob₂ : List Nat) (msg : StoredMessage)
    (rec₁ rec₂ : SigRecord) (o : Nat)
    (hmsg : findMessage st h = some msg)
    (hdec₁ : decode blob₁ = .ok [rec₁])
    (hver₁ : verify env depthLimit [] rec₁ h msg.account_id = .ok o)
    (hnodup : (confsOf st h).any (fun c => c.owner_id == o) = false)
    (hown : (env.ownersOf msg.account_id).contains o = true)
    (hban : env.banned.contains o = false)
    (hdec₂ : decode blob₂ = .ok [rec₂])
    (hver₂ : verify env depthLimit [] rec₂ h msg.account_id = .ok o) :
    ∃ st', confirm env st h blob₁ now₁ = .ok st' ∧
      confirm env st' h blob₂ now₂ = .error .DuplicateConfirmation := by
  refine ⟨⟨st.messages.map (fun m =>
      if m.message_hash = h then { m with modified := now₁ } else m),
    ⟨h, o, rec₁, sigTypeOf rec₁, now₁, now₁⟩ :: st.confirmations⟩, ?_, ?_⟩
  · have hown2 : o ∈ env.ownersOf msg.account_id := by simpa using hown
    have hban2 : o ∉ env.banned := by simpa using hban
    simp [confirm, hmsg, hdec₁, hver₁, hnodup, hown2, hban2]
  · have hmsg0 : st.messages.find? (fun m => m.message_hash == h) = some msg := hmsg
    have hfm : findMessage ⟨st.messages.map (fun m =>
        if m.message_hash = h then { m with modified := now₁ } else m),
      ⟨h, o, rec₁, sigTypeOf rec₁, now₁, now₁⟩ :: st.confirmations⟩ h =
        some { msg with modified := now₁ } := find_touch st.messages h now₁ msg hmsg0
    simp [confirm, hfm, hdec₂, hver₂, confsOf, List.filter_cons, -List.find?_map]

/-- Witness for C2: the same owner 3 confirming message 9 twice with two
distinct signature byte sequences. -/
theorem claim_C2_witness :
    ∃ st', confirm envA ⟨[msgW], []⟩ 9 (encode [recW]) 10 = .ok st' ∧
      confirm envA st' 9 (encode [SigRecord.staticRec 7 8 27]) 11 =
        .error .DuplicateConfirmation :=
  claim_C2_duplicate_confirmation envA ⟨[msgW], []⟩ 9 10 11
    (encode [recW]) (encode [SigRecord.staticRec 7 8 27]) msgW recW
    (SigRecord.staticRec 7 8 27) 3 (by decide) (by decide) (by decide)
    (by decide) (by decide) (by decide) (by decide) (by decide)

/-- C3: for every well-formed plain-text message and validly-recovering
plain-key record by an owner of the account, propose succeeds; a second
propose for the same account and message fails with `DuplicateMessage`,
and because the operation returns an error the stored Message and its
Confirmations are left unchanged. -/
theorem claim_C3_duplicate_message (env : Env) (st : LedgerState) (account : Nat)
    (bs : List Nat) (blob : List Nat) (now now' : Nat) (r s v o : Nat)
    (hdec : decode blob = .ok [SigRecord.staticRec r s v])
    (hv27 : v = 27 ∨ v = 28)
    (hrec : env.recover (messageHashOf env account (MessageContent.text bs)) r s v = some o)
    (hown : (env.ownersOf account).contains o = true)
    (hban : env.banned.contains o = false)
    (hfresh : st.messages.any (fun m =>
      m.account_id == account &&
        m.message_hash == messageHashOf env account (MessageContent.text bs)) = false) :
    ∃ st', propose env st account (MessageContent.text bs) blob now = .ok st' ∧
      propose env st' account (MessageContent.text bs) blob now' =
        .error .DuplicateMessage := by
  have hown2 : o ∈ env.ownersOf account := by simpa using hown
  have hban2 : o ∉ env.banned := by simpa using hban
  have hver : verify env depthLimit [] (SigRecord.staticRec r s v)
      (messageHashOf env account (MessageContent.text bs)) account = .ok o := by
    rcases hv27 with rfl | rfl <;> simp [verify, hrec]
  have hfresh2 : ∀ m ∈ st.messages, ¬ (m.account_id = account ∧
      m.message_hash = messageHashOf env account (MessageContent.text bs)) := by
    intro m hm
    have := List.any_eq_false.mp hfresh m hm
    simpa using this
  refine ⟨⟨⟨account, MessageContent.text bs,
      messageHashOf env account (MessageContent.text bs), o, now, now⟩ :: st.messages,
    ⟨messageHashOf env account (MessageContent.text bs), o, SigRecord.staticRec r s v,
      sigTypeOf (SigRecord.staticRec r s v), now, now⟩ :: st.confirmations⟩, ?_, ?_⟩
  · simp [propose, hdec, mapExcept, hver, hown2, hban2, hfresh2]
    intro x hx hacc hh
    exact hfresh2 x hx ⟨hacc, hh⟩
  · simp [propose, hdec, mapExcept, hver, hown2, hban2]

/-- Witness for C3: proposing the same plain-text message twice for
account 1 with owner 3's plain-key record. -/
theorem claim_C3_witness :
    ∃ st', propose envA ⟨[], []⟩ 1 (MessageContent.text [1]) (encode [recW]) 10 = .ok st' ∧
      propose envA st' 1 (MessageContent.text [1]) (encode [recW]) 11 =
        .error .DuplicateMessage :=
  claim_C3_duplicate_message envA ⟨[], []⟩ 1 [1] (encode [recW]) 10 11 5 6 27 3
    (by decide) (Or.inl rfl) (by decide) (by decide) (by decide) (by decide)

/-- C4: for an account `A` owned solely by account `B`, where `B` is owned
by a plain key, a contract-based record pointing at `B` whose nested
payload is `B`'s key's signature verifies successfully, and the
confirmation recorded by propose carries `B`'s identity as its owner, not
the identity `k` of the underlying plain key. -/
theorem claim_C4_nested_contract_owner (env : Env) (st : LedgerState)
    (A B k : Nat) (msg : MessageContent) (r s v now : Nat)
    (hAowners : env.ownersOf A = [B])
    (hBowners : env.ownersOf B = [k])
    (hBthr : env.thresholdOf B = 1)
    (hv27 : v = 27 ∨ v = 28)
    (hrec : env.recover (env.wrapHash B (messageHashOf env A msg)) r s v = some k)
    (hrv : r < 256 ^ 32) (hsv : s < 256 ^ 32) (hvlt : v < 256) (hBlt : B < 256 ^ 32)
    (hBban : B ∉ env.banned) (hBk : B ≠ k)
    (hfresh : ∀ m ∈ st.messages,
      ¬ (m.account_id = A ∧ m.message_hash = messageHashOf env A msg)) :
    ∃ st', propose env st A msg
        (encode [SigRecord.contractRec B (encode [SigRecord.staticRec r s v])]) now =
          .ok st' ∧
      ∃ c, st'.confirmations = c :: st.confirmations ∧ c.owner_id = B ∧
        c.owner_id ≠ k := by
  have hvne : v ≠ 0 := by rcases hv27 with rfl | rfl <;> omega
  have hdecInner : decode (encode [SigRecord.staticRec r s v]) =
      .ok [SigRecord.staticRec r s v] := by
    apply decode_encode
    · simp
    · intro x hx
      rcases List.mem_singleton.mp hx with rfl
      exact ⟨hrv, hsv, hvlt, hvne⟩
    · rw [encode_length]
      simp [dynSum, dynLen]
  have hdecOuter : decode (encode [SigRecord.contractRec B
      (encode [SigRecord.staticRec r s v])]) =
      .ok [SigRecord.contractRec B (encode [SigRecord.staticRec r s v])] := by
    apply decode_encode
    · simp
    · intro x hx
      rcases List.mem_singleton.mp hx with rfl
      exact hBlt
    · rw [encode_length]
      simp [dynSum, dynLen, encode_length]
  have hver : verify env depthLimit []
      (SigRecord.contractRec B (encode [SigRecord.staticRec r s v]))
      (messageHashOf env A msg) A = .ok B := by
    rcases hv27 with rfl | rfl <;>
      simp [verify, depthLimit, hdecInner, hrec, hBowners, hBthr, mapExcept]
  refine ⟨⟨⟨A, msg, messageHashOf env A msg, B, now, now⟩ :: st.messages,
    ⟨messageHashOf env A msg, B,
      SigRecord.contractRec B (encode [SigRecord.staticRec r s v]),
      SignatureType.contractSig, now, now⟩ :: st.confirmations⟩, ?_, ?_⟩
  · have hBin : B ∈ env.ownersOf A := by simp [hAowners]
    have hfresh2 : ∀ x ∈ st.messages, x.account_id = A →
        ¬ x.message_hash = messageHashOf env A msg := by
      intro x hx hacc hh
      exact hfresh x hx ⟨hacc, hh⟩
    simp [propose, hdecOuter, mapExcept, hver, hBin, hBban, hfresh2, sigTypeOf]
    exact hfresh2
  · exact ⟨_, rfl, rfl, hBk⟩

/-- Witness for C4 in the two-level environment `envB`: account 1 is
owned by account 2, itself owned by key 3; the recorded owner is 2. -/
theorem claim_C4_witness :
    ∃ st', propose envB ⟨[], []⟩ 1 (MessageContent.text [1])
        (encode [SigRecord.contractRec 2 (encode [SigRecord.staticRec 5 6 27])]) 10 =
          .ok st' ∧
      ∃ c, st'.confirmations = c :: ([] : List StoredConfirmation) ∧
        c.owner_id = 2 ∧ c.owner_id ≠ 3 :=
  claim_C4_nested_contract_owner envB ⟨[], []⟩ 1 2 3 (MessageContent.text [1]) 5 6 27 10
    (by decide) (by decide) (by decide) (Or.inl rfl) (by decide) (by decide) (by decide)
    (by decide) (by decide) (by decide) (by decide) (by simp)

/-- C5: a deny-listed signer is rejected with `SignerBanned` by both
propose and confirm, even when its signature verifies and it belongs to
the account's current owner set; since both operations return an error,
no Confirmation is stored for it. -/
theorem claim_C5_signer_banned (env : Env) (st₁ st₂ : LedgerState) (account : Nat)
    (msg : MessageContent) (blob₁ blob₂ : List Nat) (now h₂ : Nat)
    (records : List SigRecord) (owners : List Nat) (o : Nat)
    (msg₂ : StoredMessage) (rec₂ : SigRecord)
    (hdec₁ : decode blob₁ = .ok records)
    (hver₁ : mapExcept (fun rec => verify env depthLimit [] rec
      (messageHashOf env account msg) account) records = .ok owners)
    (ho : o ∈ owners)
    (hallown : ∀ x ∈ owners, x ∈ env.ownersOf account)
    (hban : o ∈ env.banned)
    (hmsg₂ : findMessage st₂ h₂ = some msg₂)
    (hdec₂ : decode blob₂ = .ok [rec₂])
    (hver₂ : verify env depthLimit [] rec₂ h₂ msg₂.account_id = .ok o)
    (hnodup₂ : (confsOf st₂ h₂).any (fun c => c.owner_id == o) = false)
    (hown₂ : o ∈ env.ownersOf msg₂.account_id) :
    propose env st₁ account msg blob₁ now = .error .SignerBanned ∧
      confirm env st₂ h₂ blob₂ now = .error .SignerBanned := by
  constructor
  · have hanyban : owners.any (fun x => env.banned.contains x) = true :=
      List.any_eq_true.mpr ⟨o, ho, by simpa using hban⟩
    simp only [propose, hdec₁, hver₁]
    rw [if_pos (by simpa using hallown), if_pos hanyban]
  · simp [confirm, hmsg₂, hdec₂, hver₂, hnodup₂, hown₂, hban]

/-- Witness for C5 in `envC`, where owner 3 recovers correctly, is the
sole owner of account 1, but is deny-listed. -/
theorem claim_C5_witness :
    propose envC ⟨[], []⟩ 1 (MessageContent.text [1]) (encode [recW]) 10 =
        .error .SignerBanned ∧
      confirm envC ⟨[msgW], []⟩ 9 (encode [recW]) 10 = .error .SignerBanned :=
  claim_C5_signer_banned envC ⟨[], []⟩ ⟨[msgW], []⟩ 1 (MessageContent.text [1])
    (encode [recW]) (encode [recW]) 10 9 [recW] [3] 3 msgW recW
    (by decide) (by decide) (by decide) (by decide) (by decide) (by decide)
    (by decide) (by decide) (by decide) (by decide)

/-- C9: an accepted confirm call on an existing message mutates only the
message's `modified` timestamp (which strictly advances) and the
Confirmation set: `account_id`, the content (kind and payload),
`message_hash`, `proposed_by` and `created` are unchanged, every other
stored message is untouched, and exactly one confirmation for this hash
is prepended. -/
theorem claim_C9_confirm_frame (env : Env) (st st' : LedgerState)
    (h : Nat) (blob : List Nat) (now : Nat) (m : StoredMessage)
    (hok : confirm env st h blob now = .ok st')
    (hm : findMessage st h = some m)
    (hnow : m.modified < now) :
    (∃ m', findMessage st' h = some m' ∧
      m'.account_id = m.account_id ∧ m'.content = m.content ∧
      m'.message_hash = m.message_hash ∧ m'.proposed_by = m.proposed_by ∧
      m'.created = m.created ∧ m'.modified = now ∧ m.modified < m'.modified) ∧
    (∀ m₂ ∈ st.messages, m₂.message_hash ≠ h → m₂ ∈ st'.messages) ∧
    (∃ c, st'.confirmations = c :: st.confirmations ∧ c.message_hash = h ∧
      c.modified = now) := by
  cases hdec : decode blob with
  | error e =>
    have hc : confirm env st h blob now = .error e := by simp [confirm, hm, hdec]
    rw [hc] at hok
    exact absurd hok (by simp)
  | ok records =>
    rcases records with _ | ⟨rec, _ | ⟨r₂, rs⟩⟩
    · have hc : confirm env st h blob now = .error .MalformedMessage := by
        simp [confirm, hm, hdec]
      rw [hc] at hok
      exact absurd hok (by simp)
    · cases hver : verify env depthLimit [] rec h m.account_id with
      | error e =>
        have hc : confirm env st h blob now = .error e := by
          simp [confirm, hm, hdec, hver]
        rw [hc] at hok
        exact absurd hok (by simp)
      | ok o =>
        by_cases hdup : ((confsOf st h).any fun c => c.owner_id == o) = true
        · have hc : confirm env st h blob now = .error .DuplicateConfirmation := by
            simp [confirm, hm, hdec, hver, hdup]
          rw [hc] at hok
          exact absurd hok (by simp)
        · by_cases hown : o ∈ env.ownersOf m.account_id
          · by_cases hb : o ∈ env.banned
            · have hc : confirm env st h blob now = .error .SignerBanned := by
                simp [confirm, hm, hdec, hver, hdup, hown, hb]
              rw [hc] at hok
              exact absurd hok (by simp)
            · have hc : confirm env st h blob now = .ok ⟨st.messages.map (fun x =>
                  if x.message_hash = h then { x with modified := now } else x),
                ⟨h, o, rec, sigTypeOf rec, now, now⟩ :: st.confirmations⟩ := by
                simp [confirm, hm, hdec, hver, hdup, hown, hb]
              rw [hc] at hok
              have hst : st' = ⟨st.messages.map (fun x =>
                  if x.message_hash = h then { x with modified := now } else x),
                ⟨h, o, rec, sigTypeOf rec, now, now⟩ :: st.confirmations⟩ := by
                injection hok with hk
                exact hk.symm
              subst hst
              refine ⟨⟨{ m with modified := now }, ?_, rfl, rfl, rfl, rfl, rfl, rfl, hnow⟩,
                ?_, ⟨h, o, rec, sigTypeOf rec, now, now⟩, rfl, rfl, rfl⟩
              · exact find_touch st.messages h now m hm
              · intro m₂ hm₂ hne
                refine List.mem_map.mpr ⟨m₂, hm₂, ?_⟩
                rw [if_neg hne]
          · have hc : confirm env st h blob now = .error .NotAnOwner := by
              simp [confirm, hm, hdec, hver, hdup, hown]
            rw [hc] at hok
            exact absurd hok (by simp)
    · have hc : confirm env st h blob now = .error .MalformedMessage := by
        simp [confirm, hm, hdec]
      rw [hc] at hok
      exact absurd hok (by simp)

/-- Witness for C9: a concrete accepted confirmation advancing the
message's modified timestamp from 0 to 10. -/
theorem claim_C9_witness :
    (∃ m', findMessage ⟨[⟨1, MessageContent.text [1], 9, 3, 0, 10⟩],
        [⟨9, 3, recW, .eoa, 10, 10⟩]⟩ 9 = some m' ∧
      m'.account_id = msgW.account_id ∧ m'.content = msgW.content ∧
      m'.message_hash = msgW.message_hash ∧ m'.proposed_by = msgW.proposed_by ∧
      m'.created = msgW.created ∧ m'.modified = 10 ∧ msgW.modified < m'.modified) ∧
    (∀ m₂ ∈ (⟨[msgW], []⟩ : LedgerState).messages, m₂.message_hash ≠ 9 →
      m₂ ∈ (⟨[⟨1, MessageContent.text [1], 9, 3, 0, 10⟩],
        [⟨9, 3, recW, .eoa, 10, 10⟩]⟩ : LedgerState).messages) ∧
    (∃ c, (⟨[⟨1, MessageContent.text [1], 9, 3, 0, 10⟩],
        [⟨9, 3, recW, .eoa, 10, 10⟩]⟩ : LedgerState).confirmations =
      c :: ([] : List StoredConfirmation) ∧ c.message_hash = 9 ∧ c.modified = 10) :=
  claim_C9_confirm_frame envA ⟨[msgW], []⟩
    ⟨[⟨1, MessageContent.text [1], 9, 3, 0, 10⟩], [⟨9, 3, recW, .eoa, 10, 10⟩]⟩
    9 (encode [recW]) 10 msgW (by decide) (by decide) (by decide)

end SafeMsg
